import Mathlib

/-!
Verification of the edwh-migrate core against its specification.

The definitions below are a shallow embedding of the Python source:
  - MigrationStore (src/edwh_migrate/migrate.py, register_ordered / iter / reset)
  - the feature ledger operations should_run and mark_migration
  - the migration runner activate_migrations
  - the schema-versioned lock file context manager and the console hook
  - the ViewMigrationManager dependency/lifecycle engine
-/

namespace EdwhMigrate

/-- Python list.insert(i, a): inserts before index i, clamping at the end. -/
def listInsert {α : Type} (i : Nat) (a : α) : List α → List α
  | [] => [a]
  | x :: xs =>
    match i with
    | 0 => a :: x :: xs
    | i' + 1 => x :: listInsert i' a xs

/-- Python list.index(a): index of the first occurrence (length if absent;
all call sites establish membership first, as the source checks membership
before calling index). -/
def listIndex (a : String) : List String → Nat
  | [] => 0
  | x :: xs => if x == a then 0 else listIndex a xs + 1

/-- Python max() over a list of ranks (the source only calls it on a
non-empty list, where the 0 seed is absorbed). -/
def maxList (l : List Nat) : Nat := l.foldr max 0

/-- MigrationStore: the singleton holding registered migrations.
Mirrors the three parallel fields of the Python class: the ordered name
list, the ordered function list and the set of used names. -/
structure MigrationStore (α : Type) where
  _order : List String
  _functions : List α
  _names : List String

/-- The store right after MigrationStore.__init__ (or reset). -/
def MigrationStore.empty {α : Type} : MigrationStore α := ⟨[], [], []⟩

/-- MigrationStore.has: name-in-set test. -/
def MigrationStore.has {α : Type} (s : MigrationStore α) (name : String) : Bool :=
  s._names.contains name

/-- The dependency-rank loop of register_ordered: for each required name,
fail when it is unknown, otherwise record its index in the order list. -/
def collectRanks (fn_name : String) (order : List String) :
    List String → Except String (List Nat)
  | [] => .ok []
  | dep :: rest =>
    if order.contains dep then
      match collectRanks fn_name order rest with
      | .ok rs => .ok (listIndex dep order :: rs)
      | .error e => .error e
    else
      .error (fn_name ++ " depends on " ++ dep ++ " which is unknown.")

/-- MigrationStore.register_ordered. The requires argument is the list of
dependency names after the source's name normalisation (a bare name is kept;
a function reference contributes its __name__). -/
def MigrationStore.register_ordered {α : Type} (s : MigrationStore α)
    (fn_name : String) (fn : α) (requires : List String) :
    Except String (MigrationStore α) :=
  if s.has fn_name then
    .error ("Duplicate migration name " ++ fn_name)
  else
    match requires with
    | [] =>
      let rank := s._order.length
      .ok ⟨listInsert rank fn_name s._order, listInsert rank fn s._functions,
           fn_name :: s._names⟩
    | d :: ds =>
      match collectRanks fn_name s._order (d :: ds) with
      | .error e => .error e
      | .ok ranks =>
        let rank := maxList ranks + 1
        .ok ⟨listInsert rank fn_name s._order, listInsert rank fn s._functions,
             fn_name :: s._names⟩

/-- MigrationStore.__iter__: zip of the order and function lists. -/
def MigrationStore.iter {α : Type} (s : MigrationStore α) : List (String × α) :=
  s._order.zip s._functions

/-- A registration sequence applied in order, as the @migration decorator
does for each function in a migrations file: (name, function, requires). -/
def registerAll {α : Type} (s : MigrationStore α) :
    List (String × α × List String) → Except String (MigrationStore α)
  | [] => .ok s
  | (n, f, reqs) :: rest =>
    match s.register_ordered n f reqs with
    | .ok s' => registerAll s' rest
    | .error e => .error e

/-- FeatureRecord: one row of the ewh_implemented_features table.
installed is an Option Bool so that SQL NULL (none) is distinct from both
booleans, as in the source where row.installed can be None. -/
structure FeatureRecord where
  name : String
  installed : Option Bool
  last_update_dttm : Nat
deriving DecidableEq, Repr

/-- The persisted feature ledger: the rows of the table in storage order. -/
abbrev Ledger := List FeatureRecord

/-- The row lookup performed by should_run: select rows matching the name
and take the first, or None when the result set is empty. -/
def firstRec (db : Ledger) (name : String) : Option FeatureRecord :=
  (db.filter (fun r => r.name == name)).head?

/-- should_run: run when there is no record, or when the record's
installed field is exactly the boolean False (Python: row.installed is
False); NULL or True mean the migration is skipped. -/
def should_run (db : Ledger) (name : String) : Bool :=
  match firstRec db name with
  | some row => row.installed == some false
  | none => true

/-- The update half of pydal's update_or_insert: overwrite the first record
matching the name with the new installed flag and a fresh timestamp. -/
def updateFirstRecord (name : String) (installed : Bool) (now : Nat) :
    Ledger → Ledger
  | [] => []
  | r :: rs =>
    if r.name == name then
      { name := r.name, installed := some installed, last_update_dttm := now } :: rs
    else
      r :: updateFirstRecord name installed now rs

/-- mark_migration: update_or_insert on the ledger keyed by name. -/
def mark_migration (db : Ledger) (name : String) (installed : Bool) (now : Nat) :
    Ledger :=
  if db.any (fun r => r.name == name) then
    updateFirstRecord name installed now db
  else
    db ++ [{ name := name, installed := some installed, last_update_dttm := now }]

/-- Exception class of an error escaping a migration body. ordinary stands
for Exception subclasses (caught by the runner's except Exception);
requirementsNotMet stands for RequimentsNotMet, which derives from
BaseEDWHMigrateException(BaseException) and is not caught there. -/
inductive ExcClass
  | ordinary
  | requirementsNotMet
deriving DecidableEq, Repr

/-- Result of invoking a migration body (with the requirement guard
already wrapped around it): a returned truthiness, or a raised error. -/
inductive BodyResult
  | ok (b : Bool)
  | exc (c : ExcClass)
deriving DecidableEq, Repr

/-- Observable side effects of one runner invocation, in order. -/
inductive Event
  | tested (name : String)
  | skipped (name : String)
  | ran (name : String)
  | committedEntry (name : String)
  | rolledBackEntry (name : String)
  | closedEntry (name : String)
  | ledgerWrite (name : String) (installed : Bool)
  | closedTop
  | flushedCache
deriving DecidableEq, Repr

/-- How one call to activate_migrations ends: a returned boolean, or a
BaseException (RequimentsNotMet) propagating out of the function. -/
inductive Outcome
  | returned (b : Bool)
  | raisedBase
deriving DecidableEq, Repr

/-- A registry entry as the runner sees it: the name and the guarded body.
The body is a function of the persisted ledger, which is what the fresh
per-entry database connection exposes to it. -/
abbrev MigEntry := String × (Ledger → BodyResult)

/-- Result of one activate_migrations call. -/
structure RunResult where
  outcome : Outcome
  ledger : Ledger
  trace : List Event
deriving Repr

/-- The main loop of activate_migrations: per entry, test should_run, skip
or run the body on a fresh handle, commit/rollback and record the outcome,
aborting on an escaping error; after the loop close the top handle and
flush the cache when configured. -/
def migrationLoop (cacheConfigured : Bool) :
    List MigEntry → Ledger → Nat → List Bool → List Event → RunResult
  | [], db, _, successes, trace =>
    { outcome := .returned (successes.any id && successes.all id),
      ledger := db,
      trace := trace ++ [Event.closedTop] ++
        (if cacheConfigured then [Event.flushedCache] else []) }
  | (name, body) :: rest, db, now, successes, trace =>
    if should_run db name then
      match body db with
      | .exc .ordinary =>
        { outcome := .returned false, ledger := db,
          trace := trace ++ [Event.tested name, Event.ran name] }
      | .exc .requirementsNotMet =>
        { outcome := .raisedBase, ledger := db,
          trace := trace ++ [Event.tested name, Event.ran name] }
      | .ok b =>
        if b then
          migrationLoop cacheConfigured rest
            (mark_migration db name true now) (now + 1)
            (successes ++ [b])
            (trace ++ [Event.tested name, Event.ran name,
              Event.committedEntry name, Event.closedEntry name,
              Event.ledgerWrite name true])
        else
          migrationLoop cacheConfigured rest
            (mark_migration db name false now) (now + 1)
            ((successes ++ [b]) ++ [false])
            (trace ++ [Event.tested name, Event.ran name,
              Event.rolledBackEntry name, Event.closedEntry name,
              Event.ledgerWrite name false])
    else
      migrationLoop cacheConfigured rest db now successes
        (trace ++ [Event.tested name, Event.skipped name])

/-- activate_migrations, given the entries produced by iterating the
registry, the current ledger, and a starting clock value. -/
def activate_migrations (cacheConfigured : Bool) (entries : List MigEntry)
    (db : Ledger) (now : Nat) : RunResult :=
  migrationLoop cacheConfigured entries db now [] []

/-- Filesystem abstraction for the schema-version lock: the set of existing
directories and the set of existing files. -/
structure FS where
  dirs : List String
  files : List String
deriving DecidableEq, Repr

/-- The configuration fields consumed by schema_versioned_lock_file. -/
structure LockCfg where
  flag_location : String
  create_flag_location : Bool
  schema_version : Option String
deriving DecidableEq, Repr

/-- Lock file path pattern: flag_location/migrate-(schema_version).complete. -/
def lockFileName (loc v : String) : String :=
  loc ++ "/migrate-" ++ v ++ ".complete"

/-- Outcome of entering the schema_versioned_lock_file context manager,
up to (and including) the point where the protected block would start. -/
inductive LockEnter
  | proceed (fs : FS) (lock : Option String)
  | errLockExists (lock : String)
  | errNotADirectory
deriving DecidableEq, Repr

/-- Entry phase of schema_versioned_lock_file: ensure the flag directory,
bypass locking when no schema version is configured, and fail with
MigrateLockExists when the lock file for the version already exists. -/
def schema_versioned_lock_enter (cfg : LockCfg) (fs : FS) : LockEnter :=
  if fs.dirs.contains cfg.flag_location then
    match cfg.schema_version with
    | none => .proceed fs none
    | some v =>
      let lock := lockFileName cfg.flag_location v
      if fs.files.contains lock then .errLockExists lock
      else .proceed fs (some lock)
  else if cfg.create_flag_location then
    let fs' : FS := { fs with dirs := cfg.flag_location :: fs.dirs }
    match cfg.schema_version with
    | none => .proceed fs' none
    | some v =>
      let lock := lockFileName cfg.flag_location v
      if fs'.files.contains lock then .errLockExists lock
      else .proceed fs' (some lock)
  else
    .errNotADirectory

/-- The migrate path of _console_hook (no help or list arguments, migrations
already importable): run activate_migrations under the schema-versioned
lock, raise MigrationFailed when it reports failure, create the lock file on
success, and map the outcome to a process exit code, treating
MigrateLockExists as success. The last component records whether
activate_migrations (and hence any ledger access) was ever invoked. -/
def console_hook_main (cfg : LockCfg) (cacheConfigured : Bool)
    (entries : List MigEntry) (fs : FS) (db : Ledger) (now : Nat) :
    Nat × FS × Ledger × Bool :=
  match schema_versioned_lock_enter cfg fs with
  | .errNotADirectory =>
    -- NotADirectoryError escapes the with statement and is caught by the
    -- hook's except BaseException handler: failure exit code.
    (1, fs, db, false)
  | .errLockExists _ =>
    -- MigrateLockExists is caught by the hook: success exit code, and the
    -- protected block (hence the ledger) was never touched.
    (0, fs, db, false)
  | .proceed fs' lock =>
    let r := activate_migrations cacheConfigured entries db now
    match r.outcome with
    | .returned true =>
      -- normal exit of the with block: create the lock file when locked
      let fs'' : FS :=
        match lock with
        | some l => { fs' with files := l :: fs'.files }
        | none => fs'
      (0, fs'', r.ledger, true)
    | .returned false =>
      -- the hook raises MigrationFailed; the context manager removes the
      -- (not yet created) lock file and swallows it, but the hook's own
      -- except BaseException sees nothing further... the exception is
      -- consumed by the context manager, so the with statement completes
      -- and success stays False: failure exit code.
      (1, fs', r.ledger, true)
    | .raisedBase =>
      -- RequimentsNotMet propagates through the context manager (which
      -- unlinks the absent lock file and re-raises) to the hook's
      -- except BaseException handler: failure exit code.
      (1, fs', r.ledger, true)

/-- A ViewMigrationManager subclass declaration: its identity, the node
types it uses, and the optional since/until migration-name markers (the
empty string means unset, as in the source's classproperty defaults). -/
structure ViewClass where
  name : String
  uses : List String
  since : String
  until_ : String
deriving DecidableEq, Repr

/-- A ViewClass with no dependencies and no temporal markers. -/
def ViewClass.plain (name : String) (uses : List String) : ViewClass :=
  ⟨name, uses, "", ""⟩

/-- The _used_by list of a class, as accumulated by __init_subclass__:
every class declared with c among its uses appends itself, in declaration
order (once per occurrence of c in its uses). -/
def usedByList (decls : List ViewClass) (c : String) : List String :=
  match decls with
  | [] => []
  | d :: rest =>
    ((d.uses.filter (fun u => u == c)).map (fun _ => d.name)) ++ usedByList rest c

/-- Runtime instance identity: the top-level instance the user constructs
(never placed in the cache), or the per-class instance created lazily and
cached during the recursive __init__. -/
inductive Inst
  | top (cls : String)
  | cached (cls : String)
deriving DecidableEq, Repr

/-- Class of an instance. -/
def Inst.cls : Inst → String
  | .top c => c
  | .cached c => c

/-- State threaded through the recursive __init__: the classes present in
the shared cache dict, and the instances list of every constructed
instance (newest first, so lookup sees dict-overwrite semantics). -/
structure BuildState where
  cacheKeys : List String
  children : List (Inst × List Inst)
deriving DecidableEq, Repr

/-- Python dict key insertion: adding an existing key leaves the key set
unchanged. -/
def addKey (k : String) (l : List String) : List String :=
  if l.contains k then l else k :: l

/-- The instances-building loop of ViewMigrationManager.__init__ for a list
of dependent classes: reuse the cached instance when present, otherwise
construct it recursively (registering its own children first) and cache it.
The fuel bounds the recursion depth (the source recurses without bound and
the assert rejects a class directly depending on itself); every recursive
call consumes fuel, so any fuel at least the total construction size
reproduces the source behaviour. -/
def buildChildren (decls : List ViewClass) :
    Nat → List String → BuildState → Option (BuildState × List Inst)
  | _, [], st => some (st, [])
  | 0, _ :: _, _ => none
  | fuel + 1, dep :: rest, st =>
    if st.cacheKeys.contains dep then
      match buildChildren decls fuel rest st with
      | some (st', is) => some (st', Inst.cached dep :: is)
      | none => none
    else
      if (usedByList decls dep).contains dep then none
      else
        match buildChildren decls fuel (usedByList decls dep) st with
        | none => none
        | some (st1, is) =>
          match buildChildren decls fuel rest
              ⟨addKey dep st1.cacheKeys, (Inst.cached dep, is) :: st1.children⟩ with
          | some (st', is') => some (st', Inst.cached dep :: is')
          | none => none

/-- Constructing the top-level instance: a fresh empty cache, the assert
against direct self-dependency, then the children loop over _used_by. -/
def buildTop (decls : List ViewClass) (fuel : Nat) (rootCls : String) :
    Option BuildState :=
  let ub := usedByList decls rootCls
  if ub.contains rootCls then none
  else
    match buildChildren decls fuel ub ⟨[], []⟩ with
    | some (st, is) => some ⟨st.cacheKeys, (Inst.top rootCls, is) :: st.children⟩
    | none => none

/-- Count of rows with the given name marked installed, as the
check_since/check_until queries compute it. -/
def countInstalled (db : Ledger) (n : String) : Nat :=
  (db.filter (fun r => r.name == n && r.installed == some true)).length

/-- Context for entering/exiting view scopes: the class table, the children
map produced by construction, the ledger, and the CURRENT_MIGRATION
environment value. -/
structure ViewCtx where
  decls : List ViewClass
  childMap : List (Inst × List Inst)
  db : Ledger
  current : String

/-- Class record lookup (classes are declared once; first match). -/
def classOf (decls : List ViewClass) (c : String) : ViewClass :=
  match decls.find? (fun d => d.name == c) with
  | some d => d
  | none => ViewClass.plain c []

/-- check_since: vacuous without a since marker; satisfied when the marker
is the currently executing migration or is marked installed. -/
def check_since (ctx : ViewCtx) (c : String) : Bool :=
  let since := (classOf ctx.decls c).since
  if since == "" then true
  else if ctx.current == since then true
  else countInstalled ctx.db since > 0

/-- check_until: vacuous without an until marker; satisfied while the
marker is not yet marked installed. -/
def check_until (ctx : ViewCtx) (c : String) : Bool :=
  let u := (classOf ctx.decls c).until_
  if u == "" then true
  else countInstalled ctx.db u == 0

/-- ViewMigrationManager.should_run. -/
def should_run_view (ctx : ViewCtx) (c : String) : Bool :=
  check_since ctx c && check_until ctx c

/-- The per-instance may_go_up flags (class default False). -/
abbrev Flags := List (Inst × Bool)

/-- Read an instance's may_go_up flag. -/
def getFlag (fl : Flags) (i : Inst) : Bool :=
  match fl.find? (fun p => p.1 == i) with
  | some p => p.2
  | none => false

/-- Write an instance's may_go_up flag. -/
def setFlag (fl : Flags) (i : Inst) (b : Bool) : Flags :=
  (i, b) :: fl

/-- down/up invocations on instances, in order. -/
inductive VEvent
  | down (i : Inst)
  | up (i : Inst)
deriving DecidableEq, Repr

/-- Children of an instance per the construction. -/
def childrenOf (ctx : ViewCtx) (i : Inst) : List Inst :=
  match ctx.childMap.find? (fun p => p.1 == i) with
  | some p => p.2
  | none => []

/-- ViewMigrationManager.__enter__: skip when not relevant, otherwise enter
the dependent instances in reverse order, invoke down, and set may_go_up. -/
def enterInst (ctx : ViewCtx) : Nat → Inst → Flags → List VEvent × Flags
  | 0, _, fl => ([], fl)
  | fuel + 1, i, fl =>
    if should_run_view ctx i.cls then
      let r := (childrenOf ctx i).reverse.foldl
        (fun (acc : List VEvent × Flags) (j : Inst) =>
          let rj := enterInst ctx fuel j acc.2
          (acc.1 ++ rj.1, rj.2))
        ([], fl)
      (r.1 ++ [VEvent.down i], setFlag r.2 i true)
    else
      ([], fl)

/-- ViewMigrationManager.__exit__: do nothing when the block raised, when
not relevant, or when may_go_up is unset; otherwise invoke up, clear
may_go_up, and exit the dependent instances in declaration order. -/
def exitInst (ctx : ViewCtx) : Nat → Bool → Inst → Flags → List VEvent × Flags
  | 0, _, _, fl => ([], fl)
  | fuel + 1, excRaised, i, fl =>
    if excRaised then ([], fl)
    else if !should_run_view ctx i.cls then ([], fl)
    else if !getFlag fl i then ([], fl)
    else
      (childrenOf ctx i).foldl
        (fun (acc : List VEvent × Flags) (j : Inst) =>
          let rj := exitInst ctx fuel false j acc.2
          (acc.1 ++ rj.1, rj.2))
        ([VEvent.up i], setFlag fl i false)

/-- Class name of a down/up event. -/
def VEvent.cls : VEvent → String
  | .down i => i.cls
  | .up i => i.cls

/-- A whole with-statement on a single top-level instance over an empty
ledger with no current migration: construct the instance, enter, run an
error-free block, exit; report the class names of the down calls and of
the up calls. -/
def viewScenario (decls : List ViewClass) (fuel : Nat) (rootCls : String) :
    Option (List String × List String) :=
  match buildTop decls fuel rootCls with
  | none => none
  | some st =>
    let ctx : ViewCtx := ⟨decls, st.children, [], ""⟩
    let e := enterInst ctx fuel (Inst.top rootCls) []
    let x := exitInst ctx fuel false (Inst.top rootCls) e.2
    some (e.1.map VEvent.cls, x.1.map VEvent.cls)

/-! ## Registry lemmas -/

theorem listInsert_perm {α : Type} (i : Nat) (a : α) (l : List α) :
    (listInsert i a l).Perm (a :: l) := by
  induction l generalizing i with
  | nil => cases i <;> simp [listInsert]
  | cons x xs ih =>
    cases i with
    | zero => simp [listInsert]
    | succ i' =>
      simp only [listInsert]
      exact ((ih i').cons x).trans (List.Perm.swap a x xs)

theorem mem_listInsert {α : Type} {b : α} {i : Nat} {a : α} {l : List α} :
    b ∈ listInsert i a l ↔ b = a ∨ b ∈ l := by
  rw [(listInsert_perm i a l).mem_iff]
  simp

theorem nodup_listInsert {α : Type} {i : Nat} {a : α} {l : List α}
    (ha : a ∉ l) (hl : l.Nodup) : (listInsert i a l).Nodup := by
  rw [(listInsert_perm i a l).nodup_iff]
  exact List.nodup_cons.mpr ⟨ha, hl⟩

theorem length_listInsert {α : Type} (i : Nat) (a : α) (l : List α) :
    (listInsert i a l).length = l.length + 1 :=
  (listInsert_perm i a l).length_eq

theorem listIndex_lt_length {b : String} {l : List String} (hb : b ∈ l) :
    listIndex b l < l.length := by
  induction l with
  | nil => cases hb
  | cons x xs ih =>
    by_cases hx : x = b
    · simp [listIndex, hx]
    · have hbxs : b ∈ xs := by
        rcases List.mem_cons.mp hb with h | h
        · exact absurd h.symm hx
        · exact h
      have hbeq : (x == b) = false := beq_eq_false_iff_ne.mpr hx
      simp only [listIndex, hbeq, Bool.false_eq_true, if_false, List.length_cons]
      exact Nat.succ_lt_succ (ih hbxs)

theorem listIndex_insert_self {a : String} {l : List String} {i : Nat}
    (ha : a ∉ l) (hi : i ≤ l.length) :
    listIndex a (listInsert i a l) = i := by
  induction l generalizing i with
  | nil =>
    have : i = 0 := Nat.le_zero.mp hi
    subst this
    simp [listInsert, listIndex]
  | cons x xs ih =>
    cases i with
    | zero => simp [listInsert, listIndex]
    | succ i' =>
      have hx : (x == a) = false := by
        refine beq_eq_false_iff_ne.mpr fun h => ha ?_
        exact h ▸ List.mem_cons_self x xs
      have haxs : a ∉ xs := fun h => ha (List.mem_cons_of_mem x h)
      have hi' : i' ≤ xs.length := Nat.le_of_succ_le_succ hi
      simp only [listInsert, listIndex, hx, Bool.false_eq_true, if_false]
      rw [ih haxs hi']

theorem listIndex_insert_other {b a : String} {l : List String} {i : Nat}
    (hb : b ∈ l) (hne : b ≠ a) :
    listIndex b (listInsert i a l) =
      if listIndex b l < i then listIndex b l else listIndex b l + 1 := by
  induction l generalizing i with
  | nil => cases hb
  | cons x xs ih =>
    cases i with
    | zero =>
      have hab : (a == b) = false := beq_eq_false_iff_ne.mpr fun h => hne h.symm
      simp [listInsert, listIndex, hab]
    | succ i' =>
      by_cases hx : x = b
      · simp [listInsert, listIndex, hx]
      · have hbxs : b ∈ xs := by
          rcases List.mem_cons.mp hb with h | h
          · exact absurd h.symm hx
          · exact h
        have hxb : (x == b) = false := beq_eq_false_iff_ne.mpr hx
        simp only [listInsert, listIndex, hxb, Bool.false_eq_true, if_false]
        rw [ih hbxs]
        by_cases h : listIndex b xs < i' <;>
          simp [h, Nat.succ_lt_succ_iff]

theorem listIndex_insert_mono {b c a : String} {l : List String} {i : Nat}
    (hb : b ∈ l) (hc : c ∈ l) (hba : b ≠ a) (hca : c ≠ a)
    (h : listIndex b l < listIndex c l) :
    listIndex b (listInsert i a l) < listIndex c (listInsert i a l) := by
  rw [listIndex_insert_other hb hba, listIndex_insert_other hc hca]
  by_cases h1 : listIndex b l < i <;> by_cases h2 : listIndex c l < i <;>
    simp [h1, h2] <;> omega

theorem le_maxList {r : Nat} {l : List Nat} (h : r ∈ l) : r ≤ maxList l := by
  induction l with
  | nil => cases h
  | cons x xs ih =>
    rcases List.mem_cons.mp h with rfl | h'
    · exact Nat.le_max_left _ _
    · exact Nat.le_trans (ih h') (Nat.le_max_right _ _)

theorem maxList_lt {l : List Nat} {L : Nat} (h0 : 0 < L) (h : ∀ r ∈ l, r < L) :
    maxList l < L := by
  induction l with
  | nil => simpa [maxList]
  | cons x xs ih =>
    have : max x (maxList xs) < L :=
      Nat.max_lt.mpr ⟨h x (List.mem_cons_self x xs), ih fun r hr => h r (List.mem_cons_of_mem x hr)⟩
    simpa [maxList] using this

theorem collectRanks_ok {fn : String} {order reqs : List String} {ranks : List Nat}
    (h : collectRanks fn order reqs = .ok ranks) :
    ranks = reqs.map (fun d => listIndex d order) ∧ ∀ d ∈ reqs, d ∈ order := by
  induction reqs generalizing ranks with
  | nil =>
    simp only [collectRanks, Except.ok.injEq] at h
    subst h
    simp
  | cons d rest ih =>
    simp only [collectRanks] at h
    by_cases hc : order.contains d
    · rw [if_pos hc] at h
      cases hrec : collectRanks fn order rest with
      | ok rs =>
        rw [hrec] at h
        simp only [Except.ok.injEq] at h
        subst h
        obtain ⟨h1, h2⟩ := ih hrec
        refine ⟨by simp [h1], ?_⟩
        intro d' hd'
        rcases List.mem_cons.mp hd' with rfl | h'
        · exact List.elem_iff.mp hc
        · exact h2 d' h'
      | error e =>
        rw [hrec] at h
        cases h
    · rw [if_neg hc] at h
      cases h

/-- Store well-formedness maintained by registration: the order list has no
duplicates, the name set matches it, and the function list is parallel. -/
def GoodStore {α : Type} (s : MigrationStore α) : Prop :=
  s._order.Nodup ∧ (∀ a, a ∈ s._names ↔ a ∈ s._order) ∧
    s._functions.length = s._order.length

/-- The migration m appears in the store after all names in ds. -/
def DepsBefore {α : Type} (s : MigrationStore α) (m : String) (ds : List String) : Prop :=
  m ∈ s._order ∧
    ∀ d ∈ ds, d ∈ s._order ∧ listIndex d s._order < listIndex m s._order

theorem register_step {α : Type} {s s' : MigrationStore α} {n : String} {f : α}
    {reqs : List String} (hg : GoodStore s)
    (h : s.register_ordered n f reqs = .ok s') :
    GoodStore s' ∧ (∀ m ds, DepsBefore s m ds → DepsBefore s' m ds) ∧
      DepsBefore s' n reqs := by
  obtain ⟨hnd, hnames, hlen⟩ := hg
  unfold MigrationStore.register_ordered at h
  by_cases hdup : s.has n
  · rw [if_pos hdup] at h
    cases h
  · rw [if_neg hdup] at h
    have hn_not : n ∉ s._order := by
      intro hmem
      exact hdup (by
        unfold MigrationStore.has
        exact List.elem_iff.mpr ((hnames n).mpr hmem))
    -- a rank that is within bounds makes all insertion lemmas available
    have main : ∀ rank : Nat, rank ≤ s._order.length →
        s' = ⟨listInsert rank n s._order, listInsert rank f s._functions, n :: s._names⟩ →
        GoodStore s' ∧ (∀ m ds, DepsBefore s m ds → DepsBefore s' m ds) ∧
          n ∈ s'._order ∧ listIndex n s'._order = rank := by
      intro rank hrank hs'
      subst hs'
      refine ⟨⟨nodup_listInsert hn_not hnd, ?_, ?_⟩, ?_, ?_, ?_⟩
      · intro a
        simp only [List.mem_cons, mem_listInsert]
        constructor
        · rintro (rfl | h')
          · exact Or.inl rfl
          · exact Or.inr ((hnames a).mp h')
        · rintro (rfl | h')
          · exact Or.inl rfl
          · exact Or.inr ((hnames a).mpr h')
      · simp only [length_listInsert, hlen]
      · rintro m ds ⟨hm, hds⟩
        refine ⟨mem_listInsert.mpr (Or.inr hm), ?_⟩
        intro d hd
        obtain ⟨hdmem, hdlt⟩ := hds d hd
        have hdn : d ≠ n := fun hh => hn_not (hh ▸ hdmem)
        have hmn : m ≠ n := fun hh => hn_not (hh ▸ hm)
        exact ⟨mem_listInsert.mpr (Or.inr hdmem),
          listIndex_insert_mono hdmem hm hdn hmn hdlt⟩
      · exact mem_listInsert.mpr (Or.inl rfl)
      · exact listIndex_insert_self hn_not hrank
    cases reqs with
    | nil =>
      simp only [Except.ok.injEq] at h
      obtain ⟨hg', hpres, hmem, _⟩ :=
        main s._order.length (Nat.le_refl _) h.symm
      exact ⟨hg', hpres, hmem, by simp⟩
    | cons d ds =>
      have h2 : (match collectRanks n s._order (d :: ds) with
          | Except.error e => (Except.error e : Except String (MigrationStore α))
          | Except.ok ranks =>
            Except.ok (⟨listInsert (maxList ranks + 1) n s._order,
              listInsert (maxList ranks + 1) f s._functions,
              n :: s._names⟩ : MigrationStore α)) = Except.ok s' := h
      clear h
      cases hcr : collectRanks n s._order (d :: ds) with
      | error e =>
        rw [hcr] at h2
        cases h2
      | ok ranks =>
        rw [hcr] at h2
        simp only [Except.ok.injEq] at h2
        obtain ⟨hranks, hmemall⟩ := collectRanks_ok hcr
        have horder_pos : 0 < s._order.length :=
          List.length_pos.mpr (List.ne_nil_of_mem (hmemall d (List.mem_cons_self d ds)))
        have hranks_lt : ∀ r ∈ ranks, r < s._order.length := by
          intro r hr
          rw [hranks] at hr
          obtain ⟨d', hd', rfl⟩ := List.mem_map.mp hr
          exact listIndex_lt_length (hmemall d' hd')
        have hrank_le : maxList ranks + 1 ≤ s._order.length :=
          Nat.succ_le_of_lt (maxList_lt horder_pos hranks_lt)
        obtain ⟨hg', hpres, hmem, hidx⟩ :=
          main (maxList ranks + 1) hrank_le h2.symm
        refine ⟨hg', hpres, hmem, ?_⟩
        intro d' hd'
        have hd'mem : d' ∈ s._order := hmemall d' hd'
        have hd'n : d' ≠ n := fun hh => hn_not (hh ▸ hd'mem)
        have hd'rank : listIndex d' s._order < maxList ranks + 1 := by
          have : listIndex d' s._order ∈ ranks := by
            rw [hranks]
            exact List.mem_map.mpr ⟨d', hd', rfl⟩
          exact Nat.lt_succ_of_le (le_maxList this)
        have hnew : listIndex d' s'._order = listIndex d' s._order := by
          rw [h2.symm]
          rw [listIndex_insert_other hd'mem hd'n]
          simp [hd'rank]
        refine ⟨?_, ?_⟩
        · rw [h2.symm]
          exact mem_listInsert.mpr (Or.inr hd'mem)
        · rw [hnew, hidx]
          exact hd'rank

theorem registerAll_inv {α : Type} :
    ∀ (seq : List (String × α × List String)) (s s' : MigrationStore α),
    GoodStore s → registerAll s seq = .ok s' →
    GoodStore s' ∧ (∀ m ds, DepsBefore s m ds → DepsBefore s' m ds) ∧
      (∀ e ∈ seq, DepsBefore s' e.1 e.2.2) := by
  intro seq
  induction seq with
  | nil =>
    intro s s' hg h
    simp only [registerAll, Except.ok.injEq] at h
    subst h
    exact ⟨hg, fun _ _ hd => hd, by simp⟩
  | cons e rest ih =>
    intro s s' hg h
    obtain ⟨n, f, reqs⟩ := e
    simp only [registerAll] at h
    cases hreg : s.register_ordered n f reqs with
    | error e' =>
      rw [hreg] at h
      cases h
    | ok s1 =>
      rw [hreg] at h
      obtain ⟨hg1, hpres1, hnew1⟩ := register_step hg hreg
      obtain ⟨hg', hpres', hrest⟩ := ih s1 s' hg1 h
      refine ⟨hg', fun m ds hd => hpres' _ _ (hpres1 _ _ hd), ?_⟩
      intro e' he'
      rcases List.mem_cons.mp he' with rfl | hmem
      · exact hpres' _ _ hnew1
      · exact hrest _ hmem

/-- C1 (confirmed): for every registration sequence whose declared
dependencies are acyclic and already registered (that is, the sequence
registers without error), iterating the resulting registry yields a run
order in which every declared dependency appears strictly before the
migration that declared it. -/
theorem c1_dependencies_precede {α : Type}
    (seq : List (String × α × List String)) (s : MigrationStore α)
    (h : registerAll MigrationStore.empty seq = .ok s)
    (e : String × α × List String) (he : e ∈ seq)
    (dep : String) (hd : dep ∈ e.2.2) :
    dep ∈ s.iter.map Prod.fst ∧ e.1 ∈ s.iter.map Prod.fst ∧
      listIndex dep (s.iter.map Prod.fst) < listIndex e.1 (s.iter.map Prod.fst) := by
  have hg : GoodStore (MigrationStore.empty (α := α)) := by
    refine ⟨List.nodup_nil, ?_, rfl⟩
    intro a
    simp [MigrationStore.empty]
  obtain ⟨hg', _, hall⟩ := registerAll_inv seq _ s hg h
  have hiter : s.iter.map Prod.fst = s._order := by
    unfold MigrationStore.iter
    exact List.map_fst_zip _ _ (Nat.le_of_eq hg'.2.2.symm)
  rw [hiter]
  obtain ⟨hm, hds⟩ := hall e he
  exact ⟨(hds dep hd).1, hm, (hds dep hd).2⟩

/-- Registration sequence witnessing C1 at a concrete input. -/
def c1WitnessSeq : List (String × Unit × List String) :=
  [("alpha", (), []), ("beta", (), ["alpha"])]

/-- The concrete store produced by registering c1WitnessSeq. -/
def c1WitnessStore : MigrationStore Unit :=
  ⟨["alpha", "beta"], [(), ()], ["beta", "alpha"]⟩

/-- Witness for C1: the dependency alpha precedes its dependent beta in the
iteration order of the concrete registry. -/
theorem c1_dependencies_precede_witness :
    "alpha" ∈ c1WitnessStore.iter.map Prod.fst ∧
    "beta" ∈ c1WitnessStore.iter.map Prod.fst ∧
    listIndex "alpha" (c1WitnessStore.iter.map Prod.fst) <
      listIndex "beta" (c1WitnessStore.iter.map Prod.fst) :=
  c1_dependencies_precede c1WitnessSeq c1WitnessStore rfl
    ("beta", (), ["alpha"]) (by decide) "alpha" (by decide)

/-- The concrete registration sequence of the spec's cascade scenario. -/
def c2Seq : List (String × Unit × List String) :=
  [("c1", (), []), ("c2", (), []), ("c3", (), []), ("c4", (), []),
   ("c5", (), []), ("c6", (), []), ("a1", (), ["c2"]), ("a2", (), []),
   ("a3", (), ["c4", "c6"]), ("a4", (), []), ("a5", (), [])]

/-- C2 (confirmed): registering c1..c6 without dependencies, then a1
requiring c2, a2 without dependencies, a3 requiring c4 and c6, and a4, a5
without dependencies, yields exactly the run order
c1, c2, a1, c3, c4, c5, c6, a3, a2, a4, a5. -/
theorem c2_cascade_order :
    (registerAll MigrationStore.empty c2Seq).map (fun s => s.iter.map Prod.fst)
      = Except.ok ["c1", "c2", "a1", "c3", "c4", "c5", "c6", "a3", "a2", "a4", "a5"] :=
  rfl

/-! ## Ledger lemmas -/

theorem firstRec_cons_pos {r : FeatureRecord} {rs : Ledger} {m : String}
    (h : (r.name == m) = true) : firstRec (r :: rs) m = some r := by
  simp [firstRec, List.filter_cons, h]

theorem firstRec_cons_neg {r : FeatureRecord} {rs : Ledger} {m : String}
    (h : (r.name == m) = false) : firstRec (r :: rs) m = firstRec rs m := by
  simp [firstRec, List.filter_cons, h]

theorem firstRec_updateFirst_self {db : Ledger} {m : String} {inst : Bool} {t : Nat}
    (h : db.any (fun r => r.name == m) = true) :
    firstRec (updateFirstRecord m inst t db) m
      = some { name := m, installed := some inst, last_update_dttm := t } := by
  induction db with
  | nil => cases h
  | cons r rs ih =>
    by_cases hr : (r.name == m) = true
    · have hrm : r.name = m := beq_iff_eq.mp hr
      simp only [updateFirstRecord, hr, if_true]
      rw [firstRec_cons_pos (by simpa using hr)]
      simp [hrm]
    · have hr' : (r.name == m) = false := Bool.not_eq_true _ ▸ by simpa using hr
      have hrs : rs.any (fun r => r.name == m) = true := by
        simp only [List.any_cons, hr', Bool.false_or] at h
        exact h
      simp only [updateFirstRecord, hr', Bool.false_eq_true, if_false]
      rw [firstRec_cons_neg hr']
      exact ih hrs

theorem firstRec_updateFirst_other {db : Ledger} {m n : String} {inst : Bool} {t : Nat}
    (hne : n ≠ m) :
    firstRec (updateFirstRecord m inst t db) n = firstRec db n := by
  induction db with
  | nil => rfl
  | cons r rs ih =>
    by_cases hr : (r.name == m) = true
    · have hrm : r.name = m := beq_iff_eq.mp hr
      have hn : (r.name == n) = false := beq_eq_false_iff_ne.mpr (hrm ▸ fun hh => hne hh.symm)
      simp only [updateFirstRecord, hr, if_true]
      rw [firstRec_cons_neg (by simpa using hn), firstRec_cons_neg hn]
    · have hr' : (r.name == m) = false := Bool.not_eq_true _ ▸ by simpa using hr
      simp only [updateFirstRecord, hr', Bool.false_eq_true, if_false]
      by_cases hn : (r.name == n) = true
      · rw [firstRec_cons_pos hn, firstRec_cons_pos hn]
      · have hn' : (r.name == n) = false := Bool.not_eq_true _ ▸ by simpa using hn
        rw [firstRec_cons_neg hn', firstRec_cons_neg hn']
        exact ih

theorem firstRec_append_self {db : Ledger} {r : FeatureRecord} {m : String}
    (hall : ∀ x ∈ db, (x.name == m) = false) (h : (r.name == m) = true) :
    firstRec (db ++ [r]) m = some r := by
  induction db with
  | nil => exact firstRec_cons_pos h
  | cons x xs ih =>
    rw [List.cons_append, firstRec_cons_neg (hall x (List.mem_cons_self x xs))]
    exact ih fun y hy => hall y (List.mem_cons_of_mem x hy)

theorem firstRec_append_irrelevant {db : Ledger} {r : FeatureRecord} {n : String}
    (h : (r.name == n) = false) :
    firstRec (db ++ [r]) n = firstRec db n := by
  induction db with
  | nil => exact firstRec_cons_neg h
  | cons x xs ih =>
    by_cases hx : (x.name == n) = true
    · rw [List.cons_append, firstRec_cons_pos hx, firstRec_cons_pos hx]
    · have hx' : (x.name == n) = false := Bool.not_eq_true _ ▸ by simpa using hx
      rw [List.cons_append, firstRec_cons_neg hx', firstRec_cons_neg hx']
      exact ih

theorem firstRec_mark_self (db : Ledger) (m : String) (inst : Bool) (t : Nat) :
    firstRec (mark_migration db m inst t) m
      = some { name := m, installed := some inst, last_update_dttm := t } := by
  unfold mark_migration
  by_cases h : db.any (fun r => r.name == m) = true
  · rw [if_pos h]
    exact firstRec_updateFirst_self h
  · have h' : db.any (fun r => r.name == m) = false := Bool.not_eq_true _ ▸ by simpa using h
    rw [if_neg (by simp [h'])]
    refine firstRec_append_self ?_ (by simp)
    intro x hx
    have := List.any_eq_false.mp h' x hx
    simpa using this

theorem firstRec_mark_other (db : Ledger) {m n : String} (inst : Bool) (t : Nat)
    (hne : n ≠ m) :
    firstRec (mark_migration db m inst t) n = firstRec db n := by
  unfold mark_migration
  by_cases h : db.any (fun r => r.name == m) = true
  · rw [if_pos h]
    exact firstRec_updateFirst_other hne
  · have h' : db.any (fun r => r.name == m) = false := Bool.not_eq_true _ ▸ by simpa using h
    rw [if_neg (by simp [h'])]
    exact firstRec_append_irrelevant (beq_eq_false_iff_ne.mpr fun hh => hne hh.symm)

theorem should_run_mark_true_self (db : Ledger) (m : String) (t : Nat) :
    should_run (mark_migration db m true t) m = false := by
  simp [should_run, firstRec_mark_self]

theorem should_run_mark_other (db : Ledger) {m n : String} (inst : Bool) (t : Nat)
    (hne : n ≠ m) :
    should_run (mark_migration db m inst t) n = should_run db n := by
  unfold should_run
  rw [firstRec_mark_other db inst t hne]

/-! ## Runner lemmas -/

theorem loop_preserves_notRun (cfg : Bool) :
    ∀ (entries : List MigEntry) (db : Ledger) (now : Nat) (succ : List Bool)
      (tr : List Event) (n : String),
    (∀ e ∈ entries, ∀ ld, e.2 ld = .ok true) → should_run db n = false →
    should_run (migrationLoop cfg entries db now succ tr).ledger n = false := by
  intro entries
  induction entries with
  | nil =>
    intro db now succ tr n _ h
    simpa [migrationLoop] using h
  | cons e rest ih =>
    intro db now succ tr n hb h
    obtain ⟨name, body⟩ := e
    have hbody : body db = .ok true := hb (name, body) (List.mem_cons_self _ _) db
    have hbrest : ∀ e ∈ rest, ∀ ld, e.2 ld = .ok true :=
      fun e he ld => hb e (List.mem_cons_of_mem _ he) ld
    cases hrun : should_run db name with
    | true =>
      simp only [migrationLoop, hrun, hbody, if_true]
      refine ih _ _ _ _ n hbrest ?_
      rcases eq_or_ne n name with rfl | hne
      · exact should_run_mark_true_self db n now
      · rw [should_run_mark_other db true now hne]
        exact h
    | false =>
      simp only [migrationLoop, hrun, Bool.false_eq_true, if_false]
      exact ih _ _ _ _ n hbrest h

theorem loop_marks_all (cfg : Bool) :
    ∀ (entries : List MigEntry) (db : Ledger) (now : Nat) (succ : List Bool)
      (tr : List Event),
    (∀ e ∈ entries, ∀ ld, e.2 ld = .ok true) →
    ∀ e ∈ entries, should_run (migrationLoop cfg entries db now succ tr).ledger e.1 = false := by
  intro entries
  induction entries with
  | nil =>
    intro db now succ tr _ e he
    cases he
  | cons e0 rest ih =>
    intro db now succ tr hb e he
    obtain ⟨name, body⟩ := e0
    have hbody : body db = .ok true := hb (name, body) (List.mem_cons_self _ _) db
    have hbrest : ∀ e ∈ rest, ∀ ld, e.2 ld = .ok true :=
      fun e he ld => hb e (List.mem_cons_of_mem _ he) ld
    cases hrun : should_run db name with
    | true =>
      simp only [migrationLoop, hrun, hbody, if_true]
      rcases List.mem_cons.mp he with rfl | hmem
      · exact loop_preserves_notRun cfg rest _ _ _ _ name hbrest
          (should_run_mark_true_self db name now)
      · exact ih _ _ _ _ hbrest e hmem
    | false =>
      simp only [migrationLoop, hrun, Bool.false_eq_true, if_false]
      rcases List.mem_cons.mp he with rfl | hmem
      · exact loop_preserves_notRun cfg rest db now succ _ name hbrest hrun
      · exact ih _ _ _ _ hbrest e hmem

/-- The trace produced by a run in which every entry is skipped. -/
def skipTrace : List MigEntry → List Event
  | [] => []
  | (n, _) :: rest => Event.tested n :: Event.skipped n :: skipTrace rest

theorem loop_all_skip (cfg : Bool) :
    ∀ (entries : List MigEntry) (db : Ledger) (now : Nat) (succ : List Bool)
      (tr : List Event),
    (∀ e ∈ entries, should_run db e.1 = false) →
    migrationLoop cfg entries db now succ tr =
      { outcome := .returned (succ.any id && succ.all id), ledger := db,
        trace := tr ++ skipTrace entries ++ [Event.closedTop] ++
          (if cfg then [Event.flushedCache] else []) } := by
  intro entries
  induction entries with
  | nil =>
    intro db now succ tr _
    simp [migrationLoop, skipTrace]
  | cons e0 rest ih =>
    intro db now succ tr h
    obtain ⟨name, body⟩ := e0
    have hname : should_run db name = false := h (name, body) (List.mem_cons_self _ _)
    simp only [migrationLoop, hname, Bool.false_eq_true, if_false]
    rw [ih db now succ _ (fun e he => h e (List.mem_cons_of_mem _ he))]
    simp [skipTrace, List.append_assoc]

/-- Test for a ledger write event. -/
def isLedgerWrite : Event → Bool
  | .ledgerWrite _ _ => true
  | _ => false

theorem skipTrace_no_write (entries : List MigEntry) :
    (skipTrace entries).filter (fun e => isLedgerWrite e) = [] := by
  induction entries with
  | nil => rfl
  | cons e rest ih =>
    obtain ⟨n, b⟩ := e
    simp only [skipTrace, List.filter_cons, isLedgerWrite]
    exact ih

theorem loop_false_never_true (cfg : Bool) :
    ∀ (entries : List MigEntry) (db : Ledger) (now : Nat) (succ : List Bool)
      (tr : List Event),
    false ∈ succ →
    (migrationLoop cfg entries db now succ tr).outcome ≠ Outcome.returned true := by
  intro entries
  induction entries with
  | nil =>
    intro db now succ tr hf h
    simp only [migrationLoop, Outcome.returned.injEq] at h
    have hall : succ.all id = false := by
      rcases hax : succ.all id with _ | _
      · rfl
      · have := List.all_eq_true.mp hax false hf
        cases this
    rw [hall, Bool.and_false] at h
    cases h
  | cons e0 rest ih =>
    intro db now succ tr hf h
    obtain ⟨name, body⟩ := e0
    cases hrun : should_run db name with
    | true =>
      rw [migrationLoop] at h
      simp only [hrun, if_true] at h
      cases hb : body db with
      | ok b =>
        rw [hb] at h
        cases b
        · exact ih _ _ _ _ (List.mem_append_left _ (List.mem_append_left _ hf)) h
        · exact ih _ _ _ _ (List.mem_append_left _ hf) h
      | exc c =>
        rw [hb] at h
        cases c <;> simp at h
    | false =>
      rw [migrationLoop] at h
      simp only [hrun, Bool.false_eq_true, if_false] at h
      exact ih _ _ _ _ hf h

/-- C3 (counterexample): a batch whose first entry's guard raises
RequimentsNotMet does not return the overall-failure signal false: the
exception, being a BaseException outside except Exception, propagates out
of activate_migrations, so the claimed returned-false outcome is wrong. -/
theorem c3_counterexample :
    (activate_migrations false
        [("m1", fun _ => BodyResult.exc ExcClass.requirementsNotMet),
         ("m2", fun _ => BodyResult.ok true)] [] 0).outcome
      = Outcome.raisedBase ∧ Outcome.raisedBase ≠ Outcome.returned false :=
  ⟨rfl, by decide⟩

/-- C3 (amended): when a running entry's body raises, the batch stops at
once with the ledger and the failing entry's record untouched and no
further entries attempted; an ordinary Exception makes the runner return
false, while RequimentsNotMet (a BaseException) propagates out of the
runner instead of producing a return value. -/
theorem c3_amended (cfg : Bool) (name : String) (body : Ledger → BodyResult)
    (rest : List MigEntry) (db : Ledger) (now : Nat) (succ : List Bool)
    (tr : List Event) (c : ExcClass)
    (hrun : should_run db name = true) (hexc : body db = .exc c) :
    (migrationLoop cfg ((name, body) :: rest) db now succ tr).ledger = db ∧
    (migrationLoop cfg ((name, body) :: rest) db now succ tr).trace
      = tr ++ [Event.tested name, Event.ran name] ∧
    (migrationLoop cfg ((name, body) :: rest) db now succ tr).outcome
      = (if c = ExcClass.ordinary then Outcome.returned false else Outcome.raisedBase) := by
  cases c <;> simp [migrationLoop, hrun, hexc]

/-- Witness for C3 (amended) at a concrete batch whose first entry raises
an ordinary error. -/
theorem c3_amended_witness :
    (migrationLoop false
        [("w1", fun _ => BodyResult.exc ExcClass.ordinary),
         ("w2", fun _ => BodyResult.ok true)] [] 0 [] []).ledger = [] ∧
    (migrationLoop false
        [("w1", fun _ => BodyResult.exc ExcClass.ordinary),
         ("w2", fun _ => BodyResult.ok true)] [] 0 [] []).trace
      = [] ++ [Event.tested "w1", Event.ran "w1"] ∧
    (migrationLoop false
        [("w1", fun _ => BodyResult.exc ExcClass.ordinary),
         ("w2", fun _ => BodyResult.ok true)] [] 0 [] []).outcome
      = (if ExcClass.ordinary = ExcClass.ordinary then Outcome.returned false
         else Outcome.raisedBase) :=
  c3_amended false "w1" (fun _ => BodyResult.exc ExcClass.ordinary)
    [("w2", fun _ => BodyResult.ok true)] [] 0 [] [] ExcClass.ordinary rfl rfl

/-- C4 (counterexample): running the always-true single-entry batch twice
from an empty ledger, the second run returns false, not the success the
claim states, because the runner returns any(successes) and all(successes)
over an empty list of attempts. -/
theorem c4_counterexample :
    (activate_migrations false [("m1", fun _ => BodyResult.ok true)]
        (activate_migrations false [("m1", fun _ => BodyResult.ok true)] [] 0).ledger
        1).outcome = Outcome.returned false ∧
    Outcome.returned false ≠ Outcome.returned true :=
  ⟨rfl, by decide⟩

/-- C4 (amended): running a batch twice in a row against the same store,
where every migration returns true, results in the second run performing
zero ledger writes with every entry skipped as already installed; the
second run however returns false, because no entry is attempted and the
result is the and of any and all over the empty success list. -/
theorem c4_amended (cfg : Bool) (entries : List MigEntry) (db : Ledger)
    (n1 n2 : Nat) (hb : ∀ e ∈ entries, ∀ ld, e.2 ld = .ok true) :
    (activate_migrations cfg entries
        (activate_migrations cfg entries db n1).ledger n2).outcome
      = Outcome.returned false ∧
    (activate_migrations cfg entries
        (activate_migrations cfg entries db n1).ledger n2).ledger
      = (activate_migrations cfg entries db n1).ledger ∧
    (activate_migrations cfg entries
        (activate_migrations cfg entries db n1).ledger n2).trace
      = skipTrace entries ++ [Event.closedTop] ++
        (if cfg then [Event.flushedCache] else []) ∧
    ((activate_migrations cfg entries
        (activate_migrations cfg entries db n1).ledger n2).trace.filter
      (fun e => isLedgerWrite e)) = [] := by
  have hskip : ∀ e ∈ entries,
      should_run (activate_migrations cfg entries db n1).ledger e.1 = false :=
    loop_marks_all cfg entries db n1 [] [] hb
  have h2 : activate_migrations cfg entries
      (activate_migrations cfg entries db n1).ledger n2
      = { outcome := .returned (List.any [] id && List.all [] id),
          ledger := (activate_migrations cfg entries db n1).ledger,
          trace := [] ++ skipTrace entries ++ [Event.closedTop] ++
            (if cfg then [Event.flushedCache] else []) } :=
    loop_all_skip cfg entries _ n2 [] [] hskip
  rw [h2]
  refine ⟨rfl, rfl, by simp, ?_⟩
  simp only [List.nil_append, List.filter_append, skipTrace_no_write]
  cases cfg <;> simp [isLedgerWrite]

/-- Witness for C4 (amended) at the concrete always-true single-entry
batch. -/
theorem c4_amended_witness :
    (activate_migrations false [("m1", fun _ => BodyResult.ok true)]
        (activate_migrations false [("m1", fun _ => BodyResult.ok true)] [] 0).ledger
        1).outcome = Outcome.returned false ∧
    (activate_migrations false [("m1", fun _ => BodyResult.ok true)]
        (activate_migrations false [("m1", fun _ => BodyResult.ok true)] [] 0).ledger
        1).ledger
      = (activate_migrations false [("m1", fun _ => BodyResult.ok true)] [] 0).ledger ∧
    (activate_migrations false [("m1", fun _ => BodyResult.ok true)]
        (activate_migrations false [("m1", fun _ => BodyResult.ok true)] [] 0).ledger
        1).trace
      = skipTrace [("m1", fun _ => BodyResult.ok true)] ++ [Event.closedTop] ++
        (if false then [Event.flushedCache] else []) ∧
    ((activate_migrations false [("m1", fun _ => BodyResult.ok true)]
        (activate_migrations false [("m1", fun _ => BodyResult.ok true)] [] 0).ledger
        1).trace.filter (fun e => isLedgerWrite e)) = [] :=
  c4_amended false [("m1", fun _ => BodyResult.ok true)] [] 0 1
    (fun e he ld => by rw [List.mem_singleton.mp he])

/-- C5 (confirmed): when a running entry's body returns falsy, the runner
rolls back and closes that entry's handle, writes the ledger record for
that name with installed false and the fresh timestamp, continues with the
remaining entries, and the overall batch outcome can never be the success
value true. -/
theorem c5_falsy_rollback (cfg : Bool) (name : String)
    (body : Ledger → BodyResult) (rest : List MigEntry) (db : Ledger)
    (now : Nat) (succ : List Bool) (tr : List Event)
    (hrun : should_run db name = true) (hf : body db = .ok false) :
    migrationLoop cfg ((name, body) :: rest) db now succ tr
      = migrationLoop cfg rest (mark_migration db name false now) (now + 1)
          ((succ ++ [false]) ++ [false])
          (tr ++ [Event.tested name, Event.ran name, Event.rolledBackEntry name,
                  Event.closedEntry name, Event.ledgerWrite name false]) ∧
    firstRec (mark_migration db name false now) name
      = some { name := name, installed := some false, last_update_dttm := now } ∧
    (migrationLoop cfg ((name, body) :: rest) db now succ tr).outcome
      ≠ Outcome.returned true := by
  have hstep : migrationLoop cfg ((name, body) :: rest) db now succ tr
      = migrationLoop cfg rest (mark_migration db name false now) (now + 1)
          ((succ ++ [false]) ++ [false])
          (tr ++ [Event.tested name, Event.ran name, Event.rolledBackEntry name,
                  Event.closedEntry name, Event.ledgerWrite name false]) := by
    simp [migrationLoop, hrun, hf]
  refine ⟨hstep, firstRec_mark_self db name false now, ?_⟩
  rw [hstep]
  exact loop_false_never_true cfg rest _ _ _ _
    (List.mem_append_right _ (List.mem_singleton_self false))

/-- Witness for C5 at a concrete two-entry batch whose first entry returns
falsy. -/
theorem c5_falsy_rollback_witness :
    migrationLoop false
        [("w1", fun _ => BodyResult.ok false), ("w2", fun _ => BodyResult.ok true)]
        [] 0 [] []
      = migrationLoop false [("w2", fun _ => BodyResult.ok true)]
          (mark_migration [] "w1" false 0) (0 + 1)
          (([] ++ [false]) ++ [false])
          ([] ++ [Event.tested "w1", Event.ran "w1", Event.rolledBackEntry "w1",
                  Event.closedEntry "w1", Event.ledgerWrite "w1" false]) ∧
    firstRec (mark_migration [] "w1" false 0) "w1"
      = some { name := "w1", installed := some false, last_update_dttm := 0 } ∧
    (migrationLoop false
        [("w1", fun _ => BodyResult.ok false), ("w2", fun _ => BodyResult.ok true)]
        [] 0 [] []).outcome ≠ Outcome.returned true :=
  c5_falsy_rollback false "w1" (fun _ => BodyResult.ok false)
    [("w2", fun _ => BodyResult.ok true)] [] 0 [] [] rfl rfl

/-- C9 (counterexample): when a body raises an ordinary error, the runner
returns immediately: this completion path closes no top-level handle and
never flushes the configured cache, contradicting the claim that every
completion path does. -/
theorem c9_counterexample :
    (activate_migrations true [("m1", fun _ => BodyResult.exc ExcClass.ordinary)]
        [] 0).outcome = Outcome.returned false ∧
    Event.closedTop ∉
      (activate_migrations true [("m1", fun _ => BodyResult.exc ExcClass.ordinary)]
        [] 0).trace ∧
    Event.flushedCache ∉
      (activate_migrations true [("m1", fun _ => BodyResult.exc ExcClass.ordinary)]
        [] 0).trace := by
  refine ⟨rfl, ?_, ?_⟩ <;> decide

theorem loop_trace_tail (cfg : Bool) :
    ∀ (entries : List MigEntry) (db : Ledger) (now : Nat) (succ : List Bool)
      (tr : List Event),
    (∀ e ∈ entries, ∀ ld, ∃ b, e.2 ld = .ok b) →
    ∃ t', (migrationLoop cfg entries db now succ tr).trace
        = tr ++ t' ++ [Event.closedTop] ++ (if cfg then [Event.flushedCache] else []) ∧
      ∀ x ∈ t', x ≠ Event.closedTop ∧ x ≠ Event.flushedCache := by
  intro entries
  induction entries with
  | nil =>
    intro db now succ tr _
    refine ⟨[], by simp [migrationLoop], by simp⟩
  | cons e0 rest ih =>
    intro db now succ tr hb
    obtain ⟨name, body⟩ := e0
    have hbrest : ∀ e ∈ rest, ∀ ld, ∃ b, e.2 ld = .ok b :=
      fun e he ld => hb e (List.mem_cons_of_mem _ he) ld
    obtain ⟨b, hbody0⟩ := hb (name, body) (List.mem_cons_self _ _) db
    have hbody : body db = BodyResult.ok b := hbody0
    cases hrun : should_run db name with
    | true =>
      cases b with
      | true =>
        simp only [migrationLoop, hrun, hbody, if_true]
        obtain ⟨t', ht', hnone⟩ := ih (mark_migration db name true now) (now + 1)
          (succ ++ [true])
          (tr ++ [Event.tested name, Event.ran name, Event.committedEntry name,
            Event.closedEntry name, Event.ledgerWrite name true]) hbrest
        refine ⟨[Event.tested name, Event.ran name, Event.committedEntry name,
          Event.closedEntry name, Event.ledgerWrite name true] ++ t', ?_, ?_⟩
        · rw [ht']
          simp [List.append_assoc]
        · intro x hx
          rcases List.mem_append.mp hx with hx | hx
          · fin_cases hx <;> exact ⟨by simp, by simp⟩
          · exact hnone x hx
      | false =>
        simp only [migrationLoop, hrun, hbody, Bool.false_eq_true, if_false, if_true]
        obtain ⟨t', ht', hnone⟩ := ih (mark_migration db name false now) (now + 1)
          ((succ ++ [false]) ++ [false])
          (tr ++ [Event.tested name, Event.ran name, Event.rolledBackEntry name,
            Event.closedEntry name, Event.ledgerWrite name false]) hbrest
        refine ⟨[Event.tested name, Event.ran name, Event.rolledBackEntry name,
          Event.closedEntry name, Event.ledgerWrite name false] ++ t', ?_, ?_⟩
        · rw [ht']
          simp [List.append_assoc]
        · intro x hx
          rcases List.mem_append.mp hx with hx | hx
          · fin_cases hx <;> exact ⟨by simp, by simp⟩
          · exact hnone x hx
    | false =>
      simp only [migrationLoop, hrun, Bool.false_eq_true, if_false]
      obtain ⟨t', ht', hnone⟩ := ih db now succ
        (tr ++ [Event.tested name, Event.skipped name]) hbrest
      refine ⟨[Event.tested name, Event.skipped name] ++ t', ?_, ?_⟩
      · rw [ht']
        simp [List.append_assoc]
      · intro x hx
        rcases List.mem_append.mp hx with hx | hx
        · fin_cases hx <;> exact ⟨by simp, by simp⟩
        · exact hnone x hx

/-- C9 (amended): on the normal completion path, where no body raises, the
runner closes the top-level handle exactly once and, when a cache endpoint
is configured, flushes it exactly once, both strictly after all per-entry
work; on the early-abort path (see the counterexample) neither happens. -/
theorem c9_amended (cfg : Bool) (entries : List MigEntry) (db : Ledger)
    (now : Nat) (h : ∀ e ∈ entries, ∀ ld, ∃ b, e.2 ld = .ok b) :
    ((activate_migrations cfg entries db now).trace.filter
        (fun e => e == Event.closedTop)).length = 1 ∧
    ((activate_migrations cfg entries db now).trace.filter
        (fun e => e == Event.flushedCache)).length
      = (if cfg then 1 else 0) ∧
    List.IsSuffix ([Event.closedTop] ++ (if cfg then [Event.flushedCache] else []))
      (activate_migrations cfg entries db now).trace := by
  obtain ⟨t', ht', hnone⟩ := loop_trace_tail cfg entries db now [] [] h
  unfold activate_migrations
  rw [ht']
  have hfilter1 : t'.filter (fun e => e == Event.closedTop) = [] := by
    refine List.filter_eq_nil_iff.mpr ?_
    intro x hx
    simp only [Bool.not_eq_true, beq_eq_false_iff_ne]
    exact (hnone x hx).1
  have hfilter2 : t'.filter (fun e => e == Event.flushedCache) = [] := by
    refine List.filter_eq_nil_iff.mpr ?_
    intro x hx
    simp only [Bool.not_eq_true, beq_eq_false_iff_ne]
    exact (hnone x hx).2
  refine ⟨?_, ?_, ?_⟩
  · simp only [List.nil_append, List.filter_append, hfilter1]
    cases cfg <;> simp
  · simp only [List.nil_append, List.filter_append, hfilter2]
    cases cfg <;> simp
  · exact ⟨t', by simp [List.append_assoc]⟩

/-- Witness for C9 (amended) at a concrete one-entry always-true batch with
the cache configured. -/
theorem c9_amended_witness :
    ((activate_migrations true [("m1", fun _ => BodyResult.ok true)] [] 0).trace.filter
        (fun e => e == Event.closedTop)).length = 1 ∧
    ((activate_migrations true [("m1", fun _ => BodyResult.ok true)] [] 0).trace.filter
        (fun e => e == Event.flushedCache)).length = (if true then 1 else 0) ∧
    List.IsSuffix ([Event.closedTop] ++ (if true then [Event.flushedCache] else []))
      (activate_migrations true [("m1", fun _ => BodyResult.ok true)] [] 0).trace :=
  c9_amended true [("m1", fun _ => BodyResult.ok true)] [] 0
    (fun e he ld => ⟨true, by rw [List.mem_singleton.mp he]⟩)

theorem firstRec_eq_none_iff (db : Ledger) (name : String) :
    firstRec db name = none ↔ ∀ r ∈ db, r.name ≠ name := by
  unfold firstRec
  rw [List.head?_eq_none_iff, List.filter_eq_nil_iff]
  constructor
  · intro h r hr
    have := h r hr
    simpa using this
  · intro h r hr
    simp only [Bool.not_eq_true, beq_eq_false_iff_ne]
    exact h r hr

theorem firstRec_some_props {db : Ledger} {name : String} {row : FeatureRecord}
    (h : firstRec db name = some row) : row ∈ db ∧ row.name = name := by
  unfold firstRec at h
  cases hf : db.filter (fun r => r.name == name) with
  | nil =>
    rw [hf] at h
    cases h
  | cons x xs =>
    rw [hf] at h
    simp only [List.head?_cons, Option.some.injEq] at h
    have hx : x ∈ db.filter (fun r => r.name == name) := by
      rw [hf]
      exact List.mem_cons_self _ _
    have hprop := List.of_mem_filter hx
    rw [← h]
    exact ⟨List.mem_of_mem_filter hx, beq_iff_eq.mp hprop⟩

/-- C10 (confirmed): should_run returns true exactly when no record with
the name exists, or the first record for the name has installed exactly
equal to the boolean false; in particular a record whose installed field is
NULL (none) or true makes should_run false, so the migration is skipped. -/
theorem c10_should_run_iff (db : Ledger) (name : String) :
    should_run db name = true ↔
      ((∀ r ∈ db, r.name ≠ name) ∨
       ∃ row, firstRec db name = some row ∧ row.installed = some false) := by
  unfold should_run
  cases h : firstRec db name with
  | none =>
    simp only [true_iff]
    exact Or.inl ((firstRec_eq_none_iff db name).mp h)
  | some row =>
    constructor
    · intro hb
      have hb' : (row.installed == some false) = true := hb
      exact Or.inr ⟨row, rfl, beq_iff_eq.mp hb'⟩
    · rintro (hnone | ⟨row', hrow', hinst⟩)
      · obtain ⟨hmem, hname⟩ := firstRec_some_props h
        exact absurd hname (hnone row hmem)
      · injection hrow' with he
        show (row.installed == some false) = true
        rw [he]
        exact beq_iff_eq.mpr hinst

/-! ## Lock file and console hook -/

/-- C8 (confirmed): when a lock file for the configured schema version
already exists, entering the lock scope fails at once with
MigrateLockExists, before the batch (and hence any ledger read or write)
is invoked, and the console hook maps this outcome to the success exit
code 0 with the filesystem and ledger untouched. -/
theorem c8_lock_exists (cfg : LockCfg) (cacheConfigured : Bool)
    (entries : List MigEntry) (fs : FS) (db : Ledger) (now : Nat) (v : String)
    (hv : cfg.schema_version = some v)
    (hdir : fs.dirs.contains cfg.flag_location = true)
    (hlock : fs.files.contains (lockFileName cfg.flag_location v) = true) :
    schema_versioned_lock_enter cfg fs
      = LockEnter.errLockExists (lockFileName cfg.flag_location v) ∧
    console_hook_main cfg cacheConfigured entries fs db now = (0, fs, db, false) := by
  have h1 : schema_versioned_lock_enter cfg fs
      = LockEnter.errLockExists (lockFileName cfg.flag_location v) := by
    unfold schema_versioned_lock_enter
    rw [if_pos hdir, hv]
    simp only [hlock, if_true]
  refine ⟨h1, ?_⟩
  unfold console_hook_main
  rw [h1]

/-- Witness for C8 at the spec's concrete scenario: schema version 2 with
its lock file already present. -/
theorem c8_lock_exists_witness :
    schema_versioned_lock_enter ⟨"/flags", false, some "2"⟩
        ⟨["/flags"], ["/flags/migrate-2.complete"]⟩
      = LockEnter.errLockExists (lockFileName "/flags" "2") ∧
    console_hook_main ⟨"/flags", false, some "2"⟩ false
        [("m1", fun _ => BodyResult.ok true)]
        ⟨["/flags"], ["/flags/migrate-2.complete"]⟩ [] 0
      = (0, ⟨["/flags"], ["/flags/migrate-2.complete"]⟩, [], false) :=
  c8_lock_exists ⟨"/flags", false, some "2"⟩ false
    [("m1", fun _ => BodyResult.ok true)]
    ⟨["/flags"], ["/flags/migrate-2.complete"]⟩ [] 0 "2" rfl (by decide) (by decide)

/-! ## View lifecycle manager -/

/-- The Base and Child class table of the spec's view scenario. -/
def c6Decls : List ViewClass :=
  [ViewClass.plain "Base" [], ViewClass.plain "Child" ["Base"]]

/-- C6 (counterexample): entering Child alone invokes only Child's own
down (and exiting only Child's up); the claimed Base.down-then-Child.down
sequence does not happen, because the recursion follows used_by (the
dependents of the entered node), not uses. -/
theorem c6_counterexample :
    viewScenario c6Decls 10 "Child" = some (["Child"], ["Child"]) ∧
    (some ((["Child"], ["Child"]) : List String × List String)
      ≠ some (["Base", "Child"], ["Child", "Base"])) :=
  ⟨rfl, by decide⟩

/-- C6 (amended): entering Child alone invokes Child.down() only and
exiting invokes Child.up() only; the recursion follows used_by, so it is
entering Base that invokes Child.down() then Base.down(), and exiting Base
that invokes Base.up() then Child.up(). -/
theorem c6_amended :
    viewScenario c6Decls 10 "Child" = some (["Child"], ["Child"]) ∧
    viewScenario c6Decls 10 "Base" = some (["Child", "Base"], ["Base", "Child"]) :=
  ⟨rfl, rfl⟩

/-- The diamond class table: Base used by C1 and C2, C1 also used by C2
(that is, C1 uses Base, C2 uses Base and C1). -/
def c7Decls : List ViewClass :=
  [ViewClass.plain "Base" [], ViewClass.plain "C1" ["Base"],
   ViewClass.plain "C2" ["Base", "C1"]]

/-- C7 (counterexample): within the single top-level composite scope
obtained by entering Base in the diamond, the shared C2 instance's down()
is invoked twice (once directly and once through C1), refuting the claim
that down() runs at most once per node type per composite scope. -/
theorem c7_counterexample :
    viewScenario c7Decls 10 "Base"
      = some (["C2", "C2", "C1", "Base"], ["Base", "C1", "C2"]) ∧
    ¬ ((["C2", "C2", "C1", "Base"].filter (fun c => c == "C2")).length ≤ 1) :=
  ⟨rfl, by decide⟩

theorem addKey_nodup {k : String} {l : List String} (h : l.Nodup) :
    (addKey k l).Nodup := by
  unfold addKey
  by_cases hc : l.contains k
  · rw [if_pos hc]
    exact h
  · rw [if_neg hc]
    refine List.nodup_cons.mpr ⟨?_, h⟩
    intro hmem
    exact hc (List.elem_iff.mpr hmem)

theorem buildChildren_nodup (decls : List ViewClass) :
    ∀ (fuel : Nat) (deps : List String) (st : BuildState)
      (r : BuildState × List Inst),
      buildChildren decls fuel deps st = some r → st.cacheKeys.Nodup →
      r.1.cacheKeys.Nodup := by
  intro fuel
  induction fuel with
  | zero =>
    intro deps st r h hnd
    cases deps with
    | nil =>
      simp only [buildChildren, Option.some.injEq] at h
      rw [← h]
      exact hnd
    | cons d rest =>
      simp only [buildChildren] at h
      exact Option.noConfusion h
  | succ fuel ih =>
    intro deps st r h hnd
    cases deps with
    | nil =>
      simp only [buildChildren, Option.some.injEq] at h
      rw [← h]
      exact hnd
    | cons dep rest =>
      by_cases hc : st.cacheKeys.contains dep = true
      · have h' : (match buildChildren decls fuel rest st with
            | some (st', is) => some (st', Inst.cached dep :: is)
            | none => none) = some r := by
          simpa only [buildChildren, hc, if_true] using h
        cases hrec : buildChildren decls fuel rest st with
        | none =>
          rw [hrec] at h'
          exact Option.noConfusion h'
        | some p =>
          obtain ⟨st', is⟩ := p
          rw [hrec] at h'
          simp only [Option.some.injEq] at h'
          rw [← h']
          exact ih rest st (st', is) hrec hnd
      · have hc' : st.cacheKeys.contains dep = false := by
          simpa using hc
        have h' : (if (usedByList decls dep).contains dep then none
            else match buildChildren decls fuel (usedByList decls dep) st with
            | none => none
            | some (st1, is) =>
              match buildChildren decls fuel rest
                  ⟨addKey dep st1.cacheKeys, (Inst.cached dep, is) :: st1.children⟩ with
              | some (st', is') => some (st', Inst.cached dep :: is')
              | none => none) = some r := by
          simpa only [buildChildren, hc', Bool.false_eq_true, if_false] using h
        by_cases hub : (usedByList decls dep).contains dep = true
        · rw [if_pos hub] at h'
          exact Option.noConfusion h'
        · rw [if_neg (by simpa using hub)] at h'
          cases hrec1 : buildChildren decls fuel (usedByList decls dep) st with
          | none =>
            rw [hrec1] at h'
            exact Option.noConfusion h'
          | some p =>
            obtain ⟨st1, is⟩ := p
            rw [hrec1] at h'
            have h'' : (match buildChildren decls fuel rest
                ⟨addKey dep st1.cacheKeys, (Inst.cached dep, is) :: st1.children⟩ with
              | some (st', is') => some (st', Inst.cached dep :: is')
              | none => none) = some r := h'
            cases hrec2 : buildChildren decls fuel rest
                ⟨addKey dep st1.cacheKeys, (Inst.cached dep, is) :: st1.children⟩ with
            | none =>
              rw [hrec2] at h''
              exact Option.noConfusion h''
            | some q =>
              obtain ⟨st', is'⟩ := q
              rw [hrec2] at h''
              simp only [Option.some.injEq] at h''
              rw [← h'']
              have h1 : st1.cacheKeys.Nodup :=
                ih (usedByList decls dep) st (st1, is) hrec1 hnd
              exact ih rest _ (st', is') hrec2 (addKey_nodup h1)

/-- Number of up() invocations on instance j in a trace. -/
def countUp (j : Inst) (tr : List VEvent) : Nat :=
  (tr.filter (fun e => e == VEvent.up j)).length

/-- The may_go_up flag of an instance, as 0 or 1. -/
def flagVal (fl : Flags) (j : Inst) : Nat :=
  if getFlag fl j then 1 else 0

theorem countUp_append (j : Inst) (a b : List VEvent) :
    countUp j (a ++ b) = countUp j a + countUp j b := by
  simp [countUp, List.filter_append]

theorem getFlag_set_self (fl : Flags) (i : Inst) (b : Bool) :
    getFlag (setFlag fl i b) i = b := by
  simp [getFlag, setFlag, List.find?]

theorem getFlag_set_other (fl : Flags) {i j : Inst} (b : Bool) (h : j ≠ i) :
    getFlag (setFlag fl i b) j = getFlag fl j := by
  have : (i == j) = false := beq_eq_false_iff_ne.mpr fun hh => h hh.symm
  simp [getFlag, setFlag, List.find?, this]

theorem exit_fold_bound (ctx : ViewCtx) (fuel : Nat) (j : Inst)
    (IH : ∀ (i : Inst) (fl : Flags),
      countUp j (exitInst ctx fuel false i fl).1
        + flagVal (exitInst ctx fuel false i fl).2 j ≤ flagVal fl j) :
    ∀ (js : List Inst) (acc : List VEvent × Flags),
      countUp j (js.foldl
          (fun (acc : List VEvent × Flags) (k : Inst) =>
            let rk := exitInst ctx fuel false k acc.2
            (acc.1 ++ rk.1, rk.2)) acc).1
        + flagVal (js.foldl
          (fun (acc : List VEvent × Flags) (k : Inst) =>
            let rk := exitInst ctx fuel false k acc.2
            (acc.1 ++ rk.1, rk.2)) acc).2 j
        ≤ countUp j acc.1 + flagVal acc.2 j := by
  intro js
  induction js with
  | nil =>
    intro acc
    exact Nat.le_refl _
  | cons k ks ih =>
    intro acc
    have hstep := IH k acc.2
    have hrest := ih (acc.1 ++ (exitInst ctx fuel false k acc.2).1,
      (exitInst ctx fuel false k acc.2).2)
    simp only [List.foldl_cons]
    refine Nat.le_trans hrest ?_
    show countUp j (acc.1 ++ (exitInst ctx fuel false k acc.2).1)
        + flagVal (exitInst ctx fuel false k acc.2).2 j
      ≤ countUp j acc.1 + flagVal acc.2 j
    rw [countUp_append]
    omega

theorem exit_up_bound (ctx : ViewCtx) :
    ∀ (fuel : Nat) (i : Inst) (fl : Flags) (j : Inst),
      countUp j (exitInst ctx fuel false i fl).1
        + flagVal (exitInst ctx fuel false i fl).2 j ≤ flagVal fl j := by
  intro fuel
  induction fuel with
  | zero =>
    intro i fl j
    simp [exitInst, countUp]
  | succ fuel ih =>
    intro i fl j
    cases h1 : should_run_view ctx i.cls with
    | false =>
      simp [exitInst, h1, countUp]
    | true =>
      cases h2 : getFlag fl i with
      | false =>
        simp [exitInst, h1, h2, countUp]
      | true =>
        have hgoal : exitInst ctx (fuel + 1) false i fl
            = (childrenOf ctx i).foldl
              (fun (acc : List VEvent × Flags) (k : Inst) =>
                let rk := exitInst ctx fuel false k acc.2
                (acc.1 ++ rk.1, rk.2))
              ([VEvent.up i], setFlag fl i false) := by
          simp [exitInst, h1, h2]
        rw [hgoal]
        refine Nat.le_trans
          (exit_fold_bound ctx fuel j (fun i' fl' => ih i' fl' j) (childrenOf ctx i)
            ([VEvent.up i], setFlag fl i false)) ?_
        by_cases hij : j = i
        · subst hij
          have hcount : countUp j [VEvent.up j] = 1 := by
            simp [countUp]
          have hflag : flagVal (setFlag fl j false) j = 0 := by
            simp [flagVal, getFlag_set_self]
          rw [hcount, hflag]
          simp [flagVal, h2]
        · have hcount : countUp j [VEvent.up i] = 0 := by
            have : (VEvent.up i == VEvent.up j) = false :=
              beq_eq_false_iff_ne.mpr fun hh => hij (VEvent.up.injEq i j ▸ hh).symm
            simp [countUp, this]
          have hflag : flagVal (setFlag fl i false) j = flagVal fl j := by
            simp [flagVal, getFlag_set_other fl false hij]
          rw [hcount, hflag]
          omega

/-- C7 (amended): within one top-level composite scope the cache holds at
most one shared instance per node type (its key set stays duplicate-free),
and up() is invoked at most once per instance during an exit, guarded by
may_go_up; down() however may run more than once on a shared instance
reachable through several dependency paths (see the counterexample). -/
theorem c7_amended :
    (∀ (decls : List ViewClass) (fuel : Nat) (deps : List String)
        (st : BuildState) (r : BuildState × List Inst),
      buildChildren decls fuel deps st = some r → st.cacheKeys.Nodup →
        r.1.cacheKeys.Nodup) ∧
    (∀ (ctx : ViewCtx) (fuel : Nat) (i : Inst) (fl : Flags) (j : Inst),
      countUp j (exitInst ctx fuel false i fl).1 ≤ 1) := by
  refine ⟨fun decls => buildChildren_nodup decls, ?_⟩
  intro ctx fuel i fl j
  have h := exit_up_bound ctx fuel i fl j
  have hle : flagVal fl j ≤ 1 := by
    unfold flagVal
    by_cases hf : getFlag fl j <;> simp [hf]
  omega

/-- Witness for C7 (amended) at the concrete diamond scope: the cache built
by entering Base is duplicate-free and the shared C2 instance goes up at
most once. -/
theorem c7_amended_witness :
    (∀ r : BuildState × List Inst,
      buildChildren c7Decls 10 (usedByList c7Decls "Base") ⟨[], []⟩ = some r →
      r.1.cacheKeys.Nodup) ∧
    countUp (Inst.cached "C2")
      (exitInst ⟨c7Decls, [], [], ""⟩ 10 false (Inst.top "Base") []).1 ≤ 1 :=
  ⟨fun r hr => c7_amended.1 c7Decls 10 (usedByList c7Decls "Base") ⟨[], []⟩ r hr
      List.nodup_nil,
    c7_amended.2 ⟨c7Decls, [], [], ""⟩ 10 (Inst.top "Base") [] (Inst.cached "C2")⟩

end EdwhMigrate
